import Mathlib

/-!
Verification of the Schema-to-Document Registry and Semantic Query Engine
(medilligence-chroma).

The repository exposes a FastAPI service (`main.py`) over a persistent
ChromaDB collection.  We model the collection as a list of entries
`(id, document_text, metadata, embedding)` and translate each endpoint
handler of `main.py` into a Lean function over that state.  Metadata is a
flat association list of string keys to scalar (string) values; embeddings
are rational vectors and the store's distance is squared Euclidean
distance, queried by ascending distance with a stable sort (ties keep
store-internal order).

ChromaDB collection operations are modelled after Chroma's documented
semantics: `upsert` replaces the entry with the same id or appends;
`delete(ids=[...])` removes matching ids and is a no-op on absent ids;
`delete(where={"table_name": {"$ne": v}})` removes exactly those entries
whose metadata HAS the key `table_name` with a value different from `v`
(documents missing the key never match a `$ne` filter); `add` inserts only
and silently ignores ids that already exist in the collection.

`app/registry.py` is imported by `main.py` but absent from the sources;
its functions (`initialize_registry`, `add_table_to_registry`,
`_create_document_from_schema`, `list_registered_tables`) are modelled
from the specification and marked as such in their doc comments.
-/

namespace Chroma

/-- Flat metadata: string keys to scalar values (modelled as strings). -/
abbrev Metadata := List (String × String)

/-- One stored tuple of the ChromaDB collection:
`(id, document_text, metadata, embedding)`. -/
structure Entry where
  id : String
  document : String
  metadata : Metadata
  embedding : List ℚ
deriving DecidableEq, Repr

/-- The persistent collection (`registry_collection` in `app/database.py`),
modelled as the list of its entries in store-internal order. -/
abbrev Collection := List Entry

/-- `collection.get(ids=[i])`: the entry with id `i`, if present. -/
def collGet (c : Collection) (i : String) : Option Entry :=
  c.find? (fun e => e.id == i)

/-- `collection.count()`. -/
def collCount (c : Collection) : Nat := c.length

/-- `collection.delete(ids=ids)`: removes the listed ids; absent ids are a
no-op (Chroma raises no error for them). -/
def collDelete (c : Collection) (ids : List String) : Collection :=
  c.filter (fun e => !(ids.contains e.id))

/-- Chroma `where={key: {"$ne": v}}` metadata filter: matches an entry iff
its metadata has `key` and the stored value differs from `v`; entries
missing the key never match. -/
def whereNe (key v : String) (e : Entry) : Bool :=
  match e.metadata.lookup key with
  | some x => x != v
  | none => false

/-- `collection.delete(where={key: {"$ne": v}})`: bulk delete of the
entries matching the `$ne` filter. -/
def collDeleteWhereNe (c : Collection) (key v : String) : Collection :=
  c.filter (fun e => !(whereNe key v e))

/-- `collection.upsert`: atomically replaces the entry carrying the same id,
or appends a new entry when the id is absent. -/
def collUpsert (c : Collection) (e : Entry) : Collection :=
  if c.any (fun x => x.id == e.id) then
    c.map (fun x => if x.id == e.id then e else x)
  else c ++ [e]

/-- `collection.add`: inserts only; an id already present in the collection
is ignored (Chroma keeps the original document and skips the add). -/
def collAdd (c : Collection) (e : Entry) : Collection :=
  if c.any (fun x => x.id == e.id) then c else c ++ [e]

/-- Failure kinds surfaced by the registry core.  Only `invalidSchema`
occurs in the modelled fragment: the document encoder rejects a schema
whose identifying name is missing or empty. -/
inductive RegistryError where
  | invalidSchema
deriving DecidableEq, Repr

/-- Failures surfaced by the HTTP layer: `validation` is the pydantic
request-model rejection (HTTP 422), `internal` the catch-all 500 mapping
of `main.py`'s `except` blocks. -/
inductive ApiError where
  | validation
  | internal
deriving DecidableEq, Repr

/-- A table schema as submitted to the registry: the identifying
`table_name` field, possibly absent, plus free-form descriptive fields
that are opaque to the core except for serialization. -/
structure Schema where
  name : Option String
  fields : List (String × String)
deriving DecidableEq, Repr

/-- Deterministic rendering of one descriptive schema field into the
document text. -/
def fieldText (f : String × String) : String := f.1 ++ ": " ++ f.2 ++ "\n"

/-- Modelled from the spec: `_create_document_from_schema` lives in
`app/registry.py`, which is imported by `main.py` but absent from the
sources.  Per the spec, it is a pure function mapping a schema to
`(stable_id, document_text, metadata)`: it fails with
`InvalidSchemaError` when `schema.name` is missing or empty, derives the
id deterministically as `"table_" + name`, concatenates the descriptive
fields with a fixed template into the document text, and emits flat
metadata containing at minimum `table_name`. -/
def _create_document_from_schema (s : Schema) :
    Except RegistryError (String × String × Metadata) :=
  match s.name with
  | none => .error .invalidSchema
  | some n =>
    if n = "" then .error .invalidSchema
    else .ok ("table_" ++ n,
              "Table: " ++ n ++ "\n" ++ String.join (s.fields.map fieldText),
              [("table_name", n)])

/-- Modelled from the spec: `add_table_to_registry` lives in
`app/registry.py`, absent from the sources.  Per the spec:
encode → embed(document_text) → upsert, overwriting any existing entry
with the same derived id. -/
def add_table_to_registry (embed : String → List ℚ) (c : Collection)
    (s : Schema) : Except RegistryError Collection :=
  match _create_document_from_schema s with
  | .error e => .error e
  | .ok (i, txt, md) => .ok (collUpsert c ⟨i, txt, md, embed txt⟩)

/-- One step of registry initialization for a single canonical schema:
if the entry with the derived id is already present it is left alone,
otherwise the schema is encoded, embedded and upserted; an encode failure
is surfaced in the success flag while the other schemas' upserts remain
applied. -/
def initStep (embed : String → List ℚ) (acc : Bool × Collection)
    (s : Schema) : Bool × Collection :=
  match _create_document_from_schema s with
  | .error _ => (false, acc.2)
  | .ok (i, txt, md) =>
    if (collGet acc.2 i).isSome then acc
    else (acc.1, collUpsert acc.2 ⟨i, txt, md, embed txt⟩)

/-- Modelled from the spec: `initialize_registry` lives in
`app/registry.py`, absent from the sources.  Per the spec, for each
schema of the canonical set: if the collection already has the canonical
entry (detected by id presence) it does nothing for it, otherwise it
encodes and upserts it; per-schema failures are surfaced, with no
rollback of the other schemas. -/
def initialize_registry (embed : String → List ℚ) (canonical : List Schema)
    (c : Collection) : Bool × Collection :=
  canonical.foldl (initStep embed) (true, c)

/-- Squared Euclidean distance between two embedding vectors. -/
def sqDist (q v : List ℚ) : ℚ :=
  (List.zipWith (fun a b => (a - b) * (a - b)) q v).sum

/-- Comparison used by the store's k-NN ranking: ascending distance. -/
def distLE (a b : String × Metadata × ℚ) : Bool :=
  decide (a.2.2 ≤ b.2.2)

/-- `collection.query(query_embeddings=[q], n_results=k)`: every stored
entry scored by distance to `q`, stably sorted by ascending distance
(ties keep store-internal order), truncated to `k` results.  Returns
`(document, metadata, distance)` triples. -/
def collQuery (c : Collection) (q : List ℚ) (k : Nat) :
    List (String × Metadata × ℚ) :=
  (((c.map (fun e => (e.document, e.metadata, sqDist q e.embedding))).mergeSort
      distLE).take k)

/-- `DELETE /registry/table/{table_name}` (`delete_table` in `main.py`):
`registry_collection.delete(ids=[f"table_{table_name}"])`, then a success
message naming the table. -/
def delete_table (c : Collection) (table_name : String) :
    Except ApiError (Collection × String) :=
  .ok (collDelete c ["table_" ++ table_name], table_name)

/-- `POST /registry/reinitialize` (`reinitialize_registry` in `main.py`):
clears via `registry_collection.delete(where={"table_name": {"$ne": ""}})`
and then runs `initialize_registry()`, reporting the success flag and the
resulting count. -/
def reinitialize_registry (embed : String → List ℚ) (canonical : List Schema)
    (c : Collection) : Except ApiError (Collection × Bool × Nat) :=
  let cleared := collDeleteWhereNe c "table_name" ""
  let r := initialize_registry embed canonical cleared
  .ok (r.2, r.1, collCount r.2)

/-- The body of `POST /query` (`QueryRequest` in `app/models.py`):
`query: str` (unconstrained) and `n_results: int` with pydantic bounds
`ge=1, le=20`. -/
structure QueryRequest where
  query : String
  n_results : Int
deriving DecidableEq, Repr

/-- One formatted result row of `QueryResponse` (`app/models.py`). -/
structure QueryResult where
  document : String
  metadata : Metadata
  distance : ℚ
deriving DecidableEq, Repr

/-- `QueryResponse` (`app/models.py`): the echoed query and the formatted
result rows. -/
structure QueryResponse where
  query : String
  results : List QueryResult
deriving DecidableEq, Repr

/-- The pydantic validation of `QueryRequest`: `n_results` is bounded by
`ge=1, le=20`; the query text itself carries no constraint. -/
def queryRequestValid (r : QueryRequest) : Bool :=
  (1 ≤ r.n_results) && (r.n_results ≤ 20)

/-- The handler body of `POST /query` (`query_registry` in `main.py`):
embed the query text, run the collection's k-NN query, unzip the result
columns and zip them back into response rows.  The handler performs no
validation of its own. -/
def query_registry (embed : String → List ℚ) (c : Collection)
    (query : String) (n_results : Nat) : QueryResponse :=
  let res := collQuery c (embed query) n_results
  let documents := res.map (fun r => r.1)
  let metadatas := res.map (fun r => r.2.1)
  let distances := res.map (fun r => r.2.2)
  { query := query
    results := (documents.zip (metadatas.zip distances)).map
      (fun p => ⟨p.1, p.2.1, p.2.2⟩) }

/-- The full request path of `POST /query`: the pydantic boundary rejects
an out-of-range `n_results` with a validation error before the handler
runs; otherwise the handler body executes. -/
def handleQuery (embed : String → List ℚ) (c : Collection)
    (r : QueryRequest) : Except ApiError QueryResponse :=
  if queryRequestValid r then
    .ok (query_registry embed c r.query r.n_results.toNat)
  else .error .validation

/-- The body of `POST /documents/add` (`AddDocumentRequest` in
`app/models.py`). -/
structure AddDocumentRequest where
  id : String
  document : String
  metadata : Option Metadata
deriving DecidableEq, Repr

/-- `POST /documents/add` (`add_document` in `main.py`): embed the
document text and `registry_collection.add` it under the supplied id;
when no metadata is supplied the entry is stored without metadata keys. -/
def add_document (embed : String → List ℚ) (c : Collection)
    (r : AddDocumentRequest) : Except ApiError (Collection × String) :=
  let emb := embed r.document
  let md := match r.metadata with
    | some m => m
    | none => []
  .ok (collAdd c ⟨r.id, r.document, md, emb⟩, r.id)

/-- `DELETE /documents/{doc_id}` (`delete_document` in `main.py`):
`registry_collection.delete(ids=[doc_id])`, then a success message. -/
def delete_document (c : Collection) (doc_id : String) :
    Except ApiError (Collection × String) :=
  .ok (collDelete c [doc_id], doc_id)

/-- A concrete embedding function for witnesses: a deterministic
one-dimensional embedding of a string. -/
def embedLen : String → List ℚ := fun s => [(s.length : ℚ)]

/-- A concrete ad hoc document without `table_name` metadata. -/
def demoDoc : Entry := ⟨"mydoc", "hello", [], [5]⟩

/-- A concrete canonical schema set for witnesses. -/
def demoCanon : List Schema := [⟨some "patients", [("columns", "id, name")]⟩]

/-- A concrete non-canonical schema for witnesses. -/
def demoA : Schema := ⟨some "A", []⟩

/-- Number of entries in the collection carrying a given id. -/
def countId (c : Collection) (i : String) : Nat :=
  (c.filter (fun e => e.id == i)).length

/-- The document encoder run in an arbitrary ambient collection state: the
state stands for whatever differs between two processes or two points in
an invocation order.  The encoder never reads it. -/
def encode_in_context (st : Collection) (s : Schema) :
    Except RegistryError (String × String × Metadata) :=
  _create_document_from_schema s

theorem collGet_eq_none_iff {c : Collection} {i : String} :
    collGet c i = none ↔ ∀ e ∈ c, e.id ≠ i := by
  simp [collGet, List.find?_eq_none]

theorem collDelete_single_mem {c : Collection} {i : String} {e : Entry} :
    e ∈ collDelete c [i] ↔ e ∈ c ∧ e.id ≠ i := by
  simp [collDelete, List.mem_filter, List.contains]

theorem collDelete_noop {c : Collection} {i : String}
    (h : collGet c i = none) : collDelete c [i] = c := by
  rw [collGet_eq_none_iff] at h
  refine List.filter_eq_self.mpr ?_
  intro e he
  simpa [List.contains] using h e he

/-- C3: for every table name `n`, the registry entry id is derived
deterministically as exactly `"table_" + n`, and `remove_table(n)` deletes
exactly the entry with that id and no other entry in the collection. -/
theorem stable_id_and_scoped_delete (c : Collection) (s : Schema)
    (n : String) (hs : s.name = some n) (hn : n ≠ "") :
    (∃ txt md, _create_document_from_schema s = .ok ("table_" ++ n, txt, md)) ∧
    (∃ c', delete_table c n = .ok (c', n) ∧
      ∀ e, e ∈ c' ↔ e ∈ c ∧ e.id ≠ "table_" ++ n) := by
  constructor
  · refine ⟨"Table: " ++ n ++ "\n" ++ String.join (s.fields.map fieldText),
      [("table_name", n)], ?_⟩
    simp [_create_document_from_schema, hs, hn]
  · exact ⟨_, rfl, fun e => collDelete_single_mem⟩

theorem stable_id_and_scoped_delete_witness :
    (∃ txt md,
      _create_document_from_schema demoA = .ok ("table_" ++ "A", txt, md)) ∧
    (∃ c', delete_table [demoDoc] "A" = .ok (c', "A") ∧
      ∀ e, e ∈ c' ↔ e ∈ [demoDoc] ∧ e.id ≠ "table_" ++ "A") :=
  stable_id_and_scoped_delete [demoDoc] demoA "A" rfl (by decide)

/-- C5: deleting an id that is not present in the collection — via
`remove_table` of a nonexistent table name or `delete` of a nonexistent
document id — returns success as a no-op and leaves the collection
unchanged. -/
theorem delete_missing_id_noop (c : Collection) (i n : String)
    (hd : collGet c i = none) (ht : collGet c ("table_" ++ n) = none) :
    delete_document c i = .ok (c, i) ∧ delete_table c n = .ok (c, n) := by
  constructor
  · simp [delete_document, collDelete_noop hd]
  · simp [delete_table, collDelete_noop ht]

theorem delete_missing_id_noop_witness :
    delete_document [demoDoc] "ghost" = .ok ([demoDoc], "ghost") ∧
    delete_table [demoDoc] "nonexistent" = .ok ([demoDoc], "nonexistent") :=
  delete_missing_id_noop [demoDoc] "ghost" "nonexistent" (by decide) (by decide)

/-- C6: for every schema whose name field is missing or empty, the encode
step fails with `InvalidSchemaError`, and hence `add_table` fails with
that same typed error rather than succeeding or failing untyped. -/
theorem encode_rejects_bad_name (embed : String → List ℚ) (c : Collection)
    (s : Schema) (h : s.name = none ∨ s.name = some "") :
    _create_document_from_schema s = .error .invalidSchema ∧
    add_table_to_registry embed c s = .error .invalidSchema := by
  have he : _create_document_from_schema s = .error .invalidSchema := by
    rcases h with h | h <;> simp [_create_document_from_schema, h]
  exact ⟨he, by simp [add_table_to_registry, he]⟩

theorem encode_rejects_bad_name_witness :
    _create_document_from_schema ⟨none, []⟩ = .error .invalidSchema ∧
    add_table_to_registry embedLen [] ⟨none, []⟩ = .error .invalidSchema :=
  encode_rejects_bad_name embedLen [] ⟨none, []⟩ (Or.inl rfl)

/-- C8: the document encoder is deterministic — encoding the same schema
in two different ambient states (different processes, different invocation
orders) yields identical `(id, document_text, metadata)` results. -/
theorem encode_deterministic (st st' : Collection) (s : Schema) :
    encode_in_context st s = encode_in_context st' s := rfl

/-- C9: the clear step of reinitialize
(`delete(where={"table_name": {"$ne": ""}})`) leaves every document whose
metadata has no `table_name` key present and unchanged, and deletes only
entries whose metadata carries a non-empty `table_name` value. -/
theorem clear_step_frame (c : Collection) (e : Entry) (he : e ∈ c) :
    (e.metadata.lookup "table_name" = none →
      e ∈ collDeleteWhereNe c "table_name" "") ∧
    (e ∈ collDeleteWhereNe c "table_name" "" ↔
      ∀ v, e.metadata.lookup "table_name" = some v → v = "") := by
  have hmem : e ∈ collDeleteWhereNe c "table_name" "" ↔
      whereNe "table_name" "" e = false := by
    simp [collDeleteWhereNe, List.mem_filter, he]
  constructor
  · intro h
    rw [hmem]
    simp [whereNe, h]
  · rw [hmem]
    unfold whereNe
    cases hl : e.metadata.lookup "table_name" with
    | none => simp
    | some x => simp [bne_eq_false_iff_eq]

theorem clear_step_frame_witness :
    (demoDoc.metadata.lookup "table_name" = none →
      demoDoc ∈ collDeleteWhereNe [demoDoc] "table_name" "") ∧
    (demoDoc ∈ collDeleteWhereNe [demoDoc] "table_name" "" ↔
      ∀ v, demoDoc.metadata.lookup "table_name" = some v → v = "") :=
  clear_step_frame [demoDoc] demoDoc (by simp)

theorem zip_unzip3 (l : List (String × Metadata × ℚ)) :
    ((l.map (fun r => r.1)).zip ((l.map (fun r => r.2.1)).zip
        (l.map (fun r => r.2.2)))).map
      (fun p => (⟨p.1, p.2.1, p.2.2⟩ : QueryResult)) =
    l.map (fun r => ⟨r.1, r.2.1, r.2.2⟩) := by
  induction l with
  | nil => rfl
  | cons a t ih => simp [ih]

theorem distLE_trans : ∀ a b c : String × Metadata × ℚ,
    distLE a b = true → distLE b c = true → distLE a c = true := by
  intro a b c hab hbc
  simp only [distLE, decide_eq_true_eq] at *
  exact le_trans hab hbc

theorem distLE_total : ∀ a b : String × Metadata × ℚ,
    (distLE a b || distLE b a) = true := by
  intro a b
  simp only [distLE, Bool.or_eq_true, decide_eq_true_eq]
  exact le_total _ _

theorem collQuery_sorted (c : Collection) (q : List ℚ) (k : Nat) :
    List.Pairwise (fun a b => a.2.2 ≤ b.2.2) (collQuery c q k) := by
  have hs := List.sorted_mergeSort distLE_trans distLE_total
      (c.map (fun e => (e.document, e.metadata, sqDist q e.embedding)))
  have hp : List.Pairwise (fun a b => a.2.2 ≤ b.2.2)
      ((c.map (fun e =>
        (e.document, e.metadata, sqDist q e.embedding))).mergeSort distLE) :=
    hs.imp (by
      intro a b h
      simpa [distLE] using h)
  exact List.Pairwise.sublist (List.take_sublist _ _) hp

theorem collQuery_length (c : Collection) (q : List ℚ) (k : Nat) :
    (collQuery c q k).length = min k (collCount c) := by
  simp [collQuery, collCount, List.length_take, List.length_mergeSort]

/-- C2: for every query text and `k` in `[1,20]` against a collection of
`m` entries, the handler returns the store's k-NN rows passed through
unmodified (no re-ranking, filtering or deduplication), hence exactly
`min(k, m)` results sorted by non-decreasing distance. -/
theorem query_passthrough (embed : String → List ℚ) (c : Collection)
    (text : String) (k : Nat) (h1 : 1 ≤ k) (h2 : k ≤ 20) :
    (query_registry embed c text k).results =
      (collQuery c (embed text) k).map (fun r => ⟨r.1, r.2.1, r.2.2⟩) ∧
    (query_registry embed c text k).results.length = min k (collCount c) ∧
    List.Sorted (· ≤ ·)
      ((query_registry embed c text k).results.map (fun r => r.distance)) := by
  have hp : (query_registry embed c text k).results =
      (collQuery c (embed text) k).map (fun r => ⟨r.1, r.2.1, r.2.2⟩) := by
    simp only [query_registry]
    exact zip_unzip3 _
  refine ⟨hp, ?_, ?_⟩
  · rw [hp, List.length_map, collQuery_length]
  · rw [hp, List.map_map]
    exact List.pairwise_map.mpr (collQuery_sorted c (embed text) k)

theorem query_passthrough_witness :
    (query_registry embedLen [demoDoc] "abc" 2).results =
      (collQuery [demoDoc] (embedLen "abc") 2).map
        (fun r => ⟨r.1, r.2.1, r.2.2⟩) ∧
    (query_registry embedLen [demoDoc] "abc" 2).results.length =
      min 2 (collCount [demoDoc]) ∧
    List.Sorted (· ≤ ·)
      ((query_registry embedLen [demoDoc] "abc" 2).results.map
        (fun r => r.distance)) :=
  query_passthrough embedLen [demoDoc] "abc" 2 (by decide) (by decide)

theorem string_append_left_inj {p a b : String} (h : p ++ a = p ++ b) :
    a = b := by
  have hd := congrArg String.data h
  simp only [String.data_append] at hd
  exact String.ext (List.append_cancel_left hd)

theorem encode_ok_id {s : Schema} {i txt : String} {md : Metadata}
    (h : _create_document_from_schema s = .ok (i, txt, md)) :
    ∃ n, s.name = some n ∧ n ≠ "" ∧ i = "table_" ++ n := by
  unfold _create_document_from_schema at h
  split at h
  · exact absurd h (by simp)
  next n hn =>
    split at h
    · exact absurd h (by simp)
    next hne =>
      refine ⟨n, hn, hne, ?_⟩
      have := (Except.ok.injEq _ _).mp h
      exact ((Prod.mk.injEq _ _ _ _).mp this).1.symm

theorem add_table_eq (embed : String → List ℚ) (c : Collection) (s : Schema)
    {i txt : String} {md : Metadata}
    (h : _create_document_from_schema s = .ok (i, txt, md)) :
    add_table_to_registry embed c s =
      .ok (collUpsert c ⟨i, txt, md, embed txt⟩) := by
  unfold add_table_to_registry
  rw [h]

theorem mem_collUpsert_elim {c : Collection} {e x : Entry}
    (hx : x ∈ collUpsert c e) : x = e ∨ (x ∈ c ∧ x.id ≠ e.id) := by
  unfold collUpsert at hx
  by_cases hc : c.any (fun y => y.id == e.id) = true
  · rw [if_pos hc] at hx
    rcases List.mem_map.mp hx with ⟨y, hy, hxy⟩
    by_cases hid : (y.id == e.id) = true
    · rw [if_pos hid] at hxy
      exact Or.inl hxy.symm
    · rw [if_neg hid] at hxy
      exact Or.inr ⟨hxy ▸ hy, by simpa using (hxy ▸ hid : ¬(x.id == e.id) = true)⟩
  · rw [if_neg hc] at hx
    rcases List.mem_append.mp hx with hx | hx
    · refine Or.inr ⟨hx, ?_⟩
      simp only [List.any_eq_true, not_exists, not_and] at hc
      simpa using hc x hx
    · exact Or.inl (by simpa using hx)

theorem mem_collUpsert_of_ne {c : Collection} {e x : Entry}
    (hx : x ∈ c) (hne : x.id ≠ e.id) : x ∈ collUpsert c e := by
  unfold collUpsert
  by_cases hc : c.any (fun y => y.id == e.id) = true
  · rw [if_pos hc]
    refine List.mem_map.mpr ⟨x, hx, ?_⟩
    rw [if_neg (by simpa using hne)]
  · rw [if_neg hc]
    exact List.mem_append.mpr (Or.inl hx)

theorem collGet_none_collUpsert {c : Collection} {e : Entry} {i : String}
    (hne : e.id ≠ i) (h : collGet c i = none) :
    collGet (collUpsert c e) i = none := by
  rw [collGet_eq_none_iff] at h ⊢
  intro x hx
  rcases mem_collUpsert_elim hx with rfl | ⟨hxc, _⟩
  · exact hne
  · exact h x hxc

theorem collGet_none_initStep {embed : String → List ℚ}
    {acc : Bool × Collection} {s : Schema} {i : String}
    (h : collGet acc.2 i = none)
    (hs : ∀ n, s.name = some n → "table_" ++ n ≠ i) :
    collGet (initStep embed acc s).2 i = none := by
  unfold initStep
  cases he : _create_document_from_schema s with
  | error err => simpa using h
  | ok v =>
    obtain ⟨i', txt, md⟩ := v
    obtain ⟨n, hn, -, rfl⟩ := encode_ok_id he
    by_cases hp : (collGet acc.2 ("table_" ++ n)).isSome = true
    · simpa [hp] using h
    · simpa [hp] using collGet_none_collUpsert (hs n hn) h

theorem collGet_none_initialize (embed : String → List ℚ)
    (canonical : List Schema) (acc : Bool × Collection) (i : String)
    (h : collGet acc.2 i = none)
    (hs : ∀ s ∈ canonical, ∀ n, s.name = some n → "table_" ++ n ≠ i) :
    collGet (canonical.foldl (initStep embed) acc).2 i = none := by
  induction canonical generalizing acc with
  | nil => simpa using h
  | cons s t ih =>
    simp only [List.foldl_cons]
    refine ih _ ?_ (fun s' hs' n hn => hs s' (List.mem_cons_of_mem _ hs') n hn)
    exact collGet_none_initStep h (hs s (List.mem_cons_self _ _))

theorem mem_initStep_of_ne {embed : String → List ℚ}
    {acc : Bool × Collection} {s : Schema} {x : Entry}
    (hx : x ∈ acc.2)
    (hs : ∀ n, s.name = some n → "table_" ++ n ≠ x.id) :
    x ∈ (initStep embed acc s).2 := by
  unfold initStep
  cases he : _create_document_from_schema s with
  | error err => simpa using hx
  | ok v =>
    obtain ⟨i', txt, md⟩ := v
    obtain ⟨n, hn, -, rfl⟩ := encode_ok_id he
    by_cases hp : (collGet acc.2 ("table_" ++ n)).isSome = true
    · simpa [hp] using hx
    · simpa [hp] using mem_collUpsert_of_ne hx (fun hc => hs n hn hc.symm)

theorem mem_initialize_of_ne (embed : String → List ℚ)
    (canonical : List Schema) (acc : Bool × Collection) (x : Entry)
    (hx : x ∈ acc.2)
    (hs : ∀ s ∈ canonical, ∀ n, s.name = some n → "table_" ++ n ≠ x.id) :
    x ∈ (canonical.foldl (initStep embed) acc).2 := by
  induction canonical generalizing acc with
  | nil => simpa using hx
  | cons s t ih =>
    simp only [List.foldl_cons]
    refine ih _ ?_ (fun s' hs' n hn => hs s' (List.mem_cons_of_mem _ hs') n hn)
    exact mem_initStep_of_ne hx (hs s (List.mem_cons_self _ _))

/-- C4 counterexample: the claim requires a query with empty text to fail
with `InvalidQueryError`, but the request path accepts empty text — the
handler embeds the empty string and returns a successful response here. -/
theorem empty_query_accepted_cex :
    (handleQuery embedLen [demoDoc] ⟨"", 3⟩).isOk = true := rfl

/-- C4 amended: `n_results` outside `[1,20]` is rejected only at the
pydantic request-model boundary, as an untyped validation failure rather
than an `InvalidQueryError`; the core performs no defensive re-validation,
and in particular empty query text passes validation and is processed
normally. -/
theorem query_validation_boundary_only (embed : String → List ℚ)
    (c : Collection) (r : QueryRequest) :
    (¬ (1 ≤ r.n_results ∧ r.n_results ≤ 20) →
      handleQuery embed c r = .error .validation) ∧
    (1 ≤ r.n_results → r.n_results ≤ 20 →
      handleQuery embed c r =
        .ok (query_registry embed c r.query r.n_results.toNat)) := by
  constructor
  · intro h
    have hv : ¬ (queryRequestValid r = true) := by
      intro hv
      exact h (by simpa [queryRequestValid] using hv)
    simp [handleQuery, hv]
  · intro h1 h2
    have hv : queryRequestValid r = true := by
      simp [queryRequestValid, h1, h2]
    simp [handleQuery, hv]

theorem query_validation_boundary_only_witness :
    handleQuery embedLen [demoDoc] ⟨"x", 25⟩ = .error .validation ∧
    handleQuery embedLen [demoDoc] ⟨"", 3⟩ =
      .ok (query_registry embedLen [demoDoc] "" ((3 : Int)).toNat) :=
  ⟨(query_validation_boundary_only embedLen [demoDoc] ⟨"x", 25⟩).1 (by decide),
   (query_validation_boundary_only embedLen [demoDoc] ⟨"", 3⟩).2
     (by decide) (by decide)⟩

/-- C1 counterexample: the claim requires every previously stored
non-canonical entry — including custom documents added outside the
registry — to be absent after `reinitialize()`.  Here the collection holds
the ad hoc document `demoDoc` (no `table_name` metadata, not canonical),
and after `reinitialize()` it is still present unchanged: the clear step's
`$ne` filter never matches it. -/
theorem reinitialize_spares_adhoc_doc_cex :
    (reinitialize_registry embedLen demoCanon [demoDoc]).map
      (fun r => collGet r.1 "mydoc") = .ok (some demoDoc) := rfl

/-- C1 amended: the clear step of `reinitialize()` is scoped to entries
whose metadata carries a non-empty `table_name`, not collection-wide.
After `add_table(A)` for a non-canonical schema `A` followed by
`reinitialize()`, `get("table_" + A.name)` returns not-found; but a
previously stored custom document without `table_name` metadata, whose id
is neither `A`'s derived id nor a canonical derived id, survives
reinitialize unchanged rather than being lost. -/
theorem reinitialize_clears_registry_entries (embed : String → List ℚ)
    (canonical : List Schema) (c : Collection) (A : Schema) (n : String)
    (c1 : Collection)
    (hA : A.name = some n) (hn : n ≠ "")
    (hcan : ∀ s ∈ canonical, s.name ≠ some n)
    (hadd : add_table_to_registry embed c A = .ok c1) :
    ∃ c' b m, reinitialize_registry embed canonical c1 = .ok (c', b, m) ∧
      collGet c' ("table_" ++ n) = none ∧
      ∀ e ∈ c, e.metadata.lookup "table_name" = none →
        e.id ≠ "table_" ++ n →
        (∀ s ∈ canonical, ∀ nm, s.name = some nm → "table_" ++ nm ≠ e.id) →
        e ∈ c' := by
  have henc : _create_document_from_schema A =
      .ok ("table_" ++ n,
        "Table: " ++ n ++ "\n" ++ String.join (A.fields.map fieldText),
        [("table_name", n)]) := by
    simp [_create_document_from_schema, hA, hn]
  have hadd2 : add_table_to_registry embed c A = Except.ok (collUpsert c
      ⟨"table_" ++ n,
        "Table: " ++ n ++ "\n" ++ String.join (A.fields.map fieldText),
        [("table_name", n)],
        embed ("Table: " ++ n ++ "\n" ++
          String.join (A.fields.map fieldText))⟩) := by
    unfold add_table_to_registry
    rw [henc]
  have hc1 : c1 = collUpsert c
      ⟨"table_" ++ n,
        "Table: " ++ n ++ "\n" ++ String.join (A.fields.map fieldText),
        [("table_name", n)],
        embed ("Table: " ++ n ++ "\n" ++ String.join (A.fields.map fieldText))⟩ :=
    Except.ok.inj (hadd.symm.trans hadd2)
  refine ⟨_, _, _, rfl, ?_, ?_⟩
  · refine collGet_none_initialize embed canonical _ _ ?_ ?_
    · rw [collGet_eq_none_iff]
      intro x hx
      have hx' := List.mem_filter.mp hx
      rw [hc1] at hx'
      rcases mem_collUpsert_elim hx'.1 with rfl | ⟨-, hne⟩
      · exfalso
        have hw : whereNe "table_name" "" (⟨"table_" ++ n,
            "Table: " ++ n ++ "\n" ++ String.join (A.fields.map fieldText),
            [("table_name", n)],
            embed ("Table: " ++ n ++ "\n" ++
              String.join (A.fields.map fieldText))⟩ : Entry) = true := by
          simp [whereNe, List.lookup, hn]
        simp [hw] at hx'
      · exact hne
    · intro s hsmem m hm heq
      exact hcan s hsmem (by rw [string_append_left_inj heq] at hm; exact hm)
  · intro e he hlook hne hids
    refine mem_initialize_of_ne embed canonical _ e ?_ hids
    show e ∈ collDeleteWhereNe c1 "table_name" ""
    refine List.mem_filter.mpr ⟨?_, ?_⟩
    · rw [hc1]
      exact mem_collUpsert_of_ne he hne
    · simp [whereNe, hlook]

theorem reinitialize_clears_registry_entries_witness :
    ∃ c' b m, reinitialize_registry embedLen demoCanon
        [demoDoc, ⟨"table_A", "Table: A\n", [("table_name", "A")],
          embedLen "Table: A\n"⟩] = .ok (c', b, m) ∧
      collGet c' ("table_" ++ "A") = none ∧
      ∀ e ∈ [demoDoc], e.metadata.lookup "table_name" = none →
        e.id ≠ "table_" ++ "A" →
        (∀ s ∈ demoCanon, ∀ nm, s.name = some nm → "table_" ++ nm ≠ e.id) →
        e ∈ c' :=
  reinitialize_clears_registry_entries embedLen demoCanon [demoDoc] demoA "A"
    _ rfl (by decide) (by decide) rfl

theorem any_collUpsert_self (c : Collection) (e : Entry) :
    (collUpsert c e).any (fun x => x.id == e.id) = true := by
  unfold collUpsert
  by_cases hc : c.any (fun x => x.id == e.id) = true
  · rw [if_pos hc]
    rcases List.any_eq_true.mp hc with ⟨y, hy, hye⟩
    refine List.any_eq_true.mpr ⟨e, ?_, by simp⟩
    exact List.mem_map.mpr ⟨y, hy, by rw [if_pos hye]⟩
  · rw [if_neg hc]
    exact List.any_eq_true.mpr
      ⟨e, List.mem_append.mpr (Or.inr (by simp)), by simp⟩

theorem map_replace_of_not_any {c : Collection} {e : Entry}
    (hc : ¬ c.any (fun x => x.id == e.id) = true) :
    c.map (fun x => if x.id == e.id then e else x) = c := by
  simp only [List.any_eq_true, not_exists, not_and] at hc
  induction c with
  | nil => rfl
  | cons a t ih =>
    have ha : ¬ (a.id == e.id) = true := hc a (List.mem_cons_self _ _)
    simp only [List.map_cons, if_neg ha, List.cons.injEq, true_and]
    exact ih (fun x hx => hc x (List.mem_cons_of_mem _ hx))

theorem replace_idem (c : Collection) (e : Entry) :
    (c.map (fun x => if x.id == e.id then e else x)).map
      (fun x => if x.id == e.id then e else x) =
    c.map (fun x => if x.id == e.id then e else x) := by
  rw [List.map_map]
  congr 1
  funext x
  simp only [Function.comp_apply]
  by_cases hx : (x.id == e.id) = true
  · rw [if_pos hx, if_pos (by simp)]
  · rw [if_neg hx, if_neg hx]

theorem collUpsert_idem (c : Collection) (e : Entry) :
    collUpsert (collUpsert c e) e = collUpsert c e := by
  have hany := any_collUpsert_self c e
  unfold collUpsert at hany ⊢
  by_cases hc : c.any (fun x => x.id == e.id) = true
  · rw [if_pos hc] at hany ⊢
    rw [if_pos hany]
    exact replace_idem c e
  · rw [if_neg hc] at hany ⊢
    rw [if_pos hany, List.map_append, map_replace_of_not_any hc]
    simp

theorem nodup_ids_collUpsert {c : Collection} {e : Entry}
    (h : (c.map Entry.id).Nodup) : ((collUpsert c e).map Entry.id).Nodup := by
  unfold collUpsert
  by_cases hc : c.any (fun x => x.id == e.id) = true
  · rw [if_pos hc]
    have hids : (c.map (fun x => if x.id == e.id then e else x)).map Entry.id
        = c.map Entry.id := by
      rw [List.map_map]
      congr 1
      funext x
      by_cases hx : (x.id == e.id) = true
      · simp only [Function.comp_apply, if_pos hx]
        exact (beq_iff_eq.mp hx).symm
      · simp only [Function.comp_apply, if_neg hx]
    rw [hids]
    exact h
  · rw [if_neg hc, List.map_append]
    refine List.Nodup.append h (List.nodup_singleton _) ?_
    intro a ha hb
    simp only [List.map_cons, List.map_nil, List.mem_singleton] at hb
    subst hb
    rcases List.mem_map.mp ha with ⟨y, hy, hye⟩
    simp only [List.any_eq_true, not_exists, not_and] at hc
    exact hc y hy (by simp [hye])

theorem countId_pos_of_any {c : Collection} {i : String}
    (h : c.any (fun x => x.id == i) = true) : 1 ≤ countId c i := by
  unfold countId
  rcases List.any_eq_true.mp h with ⟨y, hy, hyi⟩
  have hm : y ∈ c.filter (fun e => e.id == i) := List.mem_filter.mpr ⟨hy, hyi⟩
  exact List.length_pos.mpr (List.ne_nil_of_mem hm)

theorem countId_le_one {c : Collection} (h : (c.map Entry.id).Nodup)
    (i : String) : countId c i ≤ 1 := by
  unfold countId
  induction c with
  | nil => simp
  | cons a t ih =>
    simp only [List.map_cons, List.nodup_cons] at h
    by_cases ha : (a.id == i) = true
    · have hfe : t.filter (fun e => e.id == i) = [] := by
        refine List.filter_eq_nil_iff.mpr ?_
        intro x hx hxi
        have : x.id = a.id := (beq_iff_eq.mp hxi).trans (beq_iff_eq.mp ha).symm
        exact h.1 (List.mem_map.mpr ⟨x, hx, this⟩)
      simp [List.filter_cons, ha, hfe]
    · simp only [List.filter_cons, ha, if_false, Bool.false_eq_true]
      exact ih h.2

/-- C7: `add_table` is an idempotent replace: adding the same schema twice
returns the same collection the second time (overwrite, not append), so
the count is unchanged between the calls, and the result holds exactly one
entry whose id derives from the schema name. -/
theorem add_table_idempotent (embed : String → List ℚ) (c : Collection)
    (s : Schema) (n : String) (hs : s.name = some n) (hn : n ≠ "")
    (hnd : (c.map Entry.id).Nodup) :
    ∃ c1 c2, add_table_to_registry embed c s = .ok c1 ∧
      add_table_to_registry embed c1 s = .ok c2 ∧
      c2 = c1 ∧ collCount c2 = collCount c1 ∧
      countId c1 ("table_" ++ n) = 1 := by
  have henc : _create_document_from_schema s =
      .ok ("table_" ++ n,
        "Table: " ++ n ++ "\n" ++ String.join (s.fields.map fieldText),
        [("table_name", n)]) := by
    simp [_create_document_from_schema, hs, hn]
  refine ⟨collUpsert c
      ⟨"table_" ++ n,
        "Table: " ++ n ++ "\n" ++ String.join (s.fields.map fieldText),
        [("table_name", n)],
        embed ("Table: " ++ n ++ "\n" ++ String.join (s.fields.map fieldText))⟩,
    collUpsert c
      ⟨"table_" ++ n,
        "Table: " ++ n ++ "\n" ++ String.join (s.fields.map fieldText),
        [("table_name", n)],
        embed ("Table: " ++ n ++ "\n" ++ String.join (s.fields.map fieldText))⟩,
    ?_, ?_, rfl, rfl, ?_⟩
  · exact add_table_eq embed c s henc
  · rw [add_table_eq embed _ s henc, collUpsert_idem]
  · refine le_antisymm (countId_le_one (nodup_ids_collUpsert hnd) _) ?_
    exact countId_pos_of_any (any_collUpsert_self c _)

theorem add_table_idempotent_witness :
    ∃ c1 c2, add_table_to_registry embedLen [demoDoc] demoA = .ok c1 ∧
      add_table_to_registry embedLen c1 demoA = .ok c2 ∧
      c2 = c1 ∧ collCount c2 = collCount c1 ∧
      countId c1 ("table_" ++ "A") = 1 :=
  add_table_idempotent embedLen [demoDoc] demoA "A" rfl (by decide) (by decide)

/-- C10 counterexample: the claim requires `add_document` with an already
present id to return an error; here the id `"mydoc"` is present, the add
is silently ignored (the collection stays identical), and the endpoint
still returns success. -/
theorem duplicate_add_succeeds_cex :
    add_document embedLen [demoDoc] ⟨"mydoc", "new text", none⟩ =
      .ok ([demoDoc], "mydoc") := rfl

/-- C10 amended: `add_document` inserts only and never replaces — for an
id already present the add is silently ignored and the endpoint returns
success, with the collection (and so the stored document text, metadata
and embedding for that id) unchanged. -/
theorem add_document_insert_only (embed : String → List ℚ) (c : Collection)
    (r : AddDocumentRequest) (h : (collGet c r.id).isSome = true) :
    add_document embed c r = .ok (c, r.id) := by
  unfold collGet at h
  have hany : c.any (fun x => x.id == r.id) = true := by
    rw [List.any_eq_true]
    obtain ⟨x, hx⟩ := Option.isSome_iff_exists.mp h
    have hpx := @List.find?_some Entry (fun e => e.id == r.id) x c hx
    exact ⟨x, List.mem_of_find?_eq_some hx, hpx⟩
  simp [add_document, collAdd, hany]

theorem add_document_insert_only_witness :
    add_document embedLen [demoDoc] ⟨"mydoc", "other text",
      some [("kind", "note")]⟩ = .ok ([demoDoc], "mydoc") :=
  add_document_insert_only embedLen [demoDoc]
    ⟨"mydoc", "other text", some [("kind", "note")]⟩ (by decide)

end Chroma
